import Mathlib

/-!
Verification of the multi-index snippet storage engine of `the-way`.

The repository's `src/the_way/mod.rs` (the command layer) is translated
directly.  The modules `database.rs`, `filter.rs`, `snippet.rs` and
`errors.rs` are declared (`mod database;` etc.) but their sources are not
in the repository snapshot; where a definition below stands in for one of
them it is modelled from the specification and its doc comment says so.

Timestamps are modelled as natural numbers.
-/

namespace TheWay

/-- A snippet record, after §3 of the specification: identifier, description,
source-language name, tag set (as a list), code body and the two timestamps
(`date` = created_at, `updated` = modified_at, as in the upstream field
names). -/
structure Snippet where
  index : Nat
  description : String
  language : String
  tags : List String
  code : String
  date : Nat
  updated : Nat
deriving Repr, DecidableEq

/-- One record of the bulk JSON file format (§6).  The mandatory fields are
`description`, `language`, `tags`, `code`; a file may additionally carry
identifier and timestamp fields, which the program must not trust. -/
structure SnippetFile where
  description : String
  language : String
  tags : List String
  code : String
  fileIndex : Option Nat
  fileDate : Option Nat
  fileUpdated : Option Nat
deriving Repr, DecidableEq

/-- The user-supplied part of a snippet (description, language, tags, code),
as collected by the interactive-entry collaborator (§6). -/
structure SnipInput where
  description : String
  language : String
  tags : List String
  code : String
deriving Repr, DecidableEq

/-- Modelled from the spec: `errors.rs` (the `LostTheWay` error enum) is not
under `src/`.  The variants follow the §7 taxonomy (`NotFound`,
`StorageIOError`, `PartialMutationFailure`, `InvalidRecord`) plus the
`DoingNothing` variant used directly in `mod.rs` for declined
confirmations. -/
inductive LostTheWay where
  | NotFound (index : Nat)
  | StorageIOError
  | PartialMutationFailure
  | InvalidRecord
  | DoingNothing (message : String)
deriving Repr, DecidableEq

/-- The persistent state: the primary record tree (association list from
identifier to record), the two secondary index trees (language name /
tag label to identifier set, §4.2), and the persisted identifier counter
(`snippet_index` metadata). -/
structure Db where
  snippets : List (Nat × Snippet)
  languageIdx : List (String × List Nat)
  tagIdx : List (String × List Nat)
  counter : Nat
deriving Repr, DecidableEq

def emptyDb : Db := { snippets := [], languageIdx := [], tagIdx := [], counter := 0 }

/-- Index lookup (§4.2 `lookup`): the empty set for an unknown key, never an
error. -/
def lookupIdx (idx : List (String × List Nat)) (k : String) : List Nat :=
  match idx with
  | [] => []
  | (k', is) :: rest => if k' = k then is else lookupIdx rest k

/-- Index insertion (§4.2 `add_to_index`): inserts `i` into the set for `k`,
creating the key if absent; idempotent. -/
def addIdx (idx : List (String × List Nat)) (k : String) (i : Nat) :
    List (String × List Nat) :=
  match idx with
  | [] => [(k, [i])]
  | (k', is) :: rest =>
    if k' = k then (k', if i ∈ is then is else is ++ [i]) :: rest
    else (k', is) :: addIdx rest k i

/-- Index removal (§4.2 `remove_from_index`): removes `i` from the set for
`k`; a set that becomes empty is pruned. -/
def removeIdx (idx : List (String × List Nat)) (k : String) (i : Nat) :
    List (String × List Nat) :=
  match idx with
  | [] => []
  | (k', is) :: rest =>
    if k' = k then
      (if is.filter (fun j => j ≠ i) = [] then rest
       else (k', is.filter (fun j => j ≠ i)) :: rest)
    else (k', is) :: removeIdx rest k i

/-- Record-tree write, overwrite semantics (§4.1 `put`). -/
def putRecord : List (Nat × Snippet) → Nat → Snippet → List (Nat × Snippet)
  | [], i, s => [(i, s)]
  | (j, t) :: rest, i, s =>
    if j = i then (i, s) :: rest else (j, t) :: putRecord rest i s

/-- Record-tree removal (the tree is a map, so every entry at the key
goes). -/
def removeRecord : List (Nat × Snippet) → Nat → List (Nat × Snippet)
  | [], _ => []
  | (j, t) :: rest, i =>
    if j = i then removeRecord rest i else (j, t) :: removeRecord rest i

/-- Record lookup. -/
def lookupRecord (l : List (Nat × Snippet)) (i : Nat) : Option Snippet :=
  match l with
  | [] => none
  | (j, s) :: rest => if j = i then some s else lookupRecord rest i

/-- Modelled from the spec: `database.rs` is not under `src/`.
`get_snippet` is the Record Store's exact lookup (§4.1 `get`). -/
def getSnippet (db : Db) (index : Nat) : Option Snippet :=
  lookupRecord db.snippets index

/-- Modelled from the spec: `database.rs` is not under `src/`.
`get_current_snippet_index` reads the persisted counter (the last-assigned
identifier, §3). -/
def getCurrentSnippetIndex (db : Db) : Nat := db.counter

/-- Modelled from the spec: `database.rs` is not under `src/`.
`increment_snippet_index` advances the persisted counter by one (the
increment half of §4.1 `next_id`). -/
def incrementSnippetIndex (db : Db) : Db := { db with counter := db.counter + 1 }

/-- Modelled from the spec: `database.rs` is not under `src/`.
`reset_index` is §4.1 `reset_counter`: sets the counter back to its initial
value; used only by the bulk-clear operation. -/
def resetIndex (db : Db) : Db := { db with counter := 0 }

/-- Identifier-reservation step of `add_snippet` (§4.3 Add, step 1: the
counter is advanced before the record is written). -/
def reserveStep (db : Db) : Db := { db with counter := db.counter + 1 }

/-- Record-write step of `add_snippet` (§4.3 Add, step 2). -/
def writeStep (db : Db) (s : Snippet) : Db :=
  { db with snippets := putRecord db.snippets s.index s }

/-- Index-population step of `add_snippet` (§4.3 Add, step 3). -/
def indexStep (db : Db) (s : Snippet) : Db :=
  { db with
    languageIdx := addIdx db.languageIdx s.language s.index,
    tagIdx := s.tags.foldl (fun t tag => addIdx t tag s.index) db.tagIdx }

/-- Modelled from the spec: `database.rs` is not under `src/`.
`add_snippet` follows the Consistency Coordinator's Add ordering (§4.3):
reserve (advance the counter), then write the record at `s.index`, then
populate the language and tag indices. -/
def addSnippet (db : Db) (s : Snippet) : Db :=
  indexStep (writeStep (reserveStep db) s) s

/-- The externally observable intermediate states of one `add_snippet` call,
in execution order. -/
def addSnippetStates (db : Db) (s : Snippet) : List Db :=
  [db, reserveStep db, writeStep (reserveStep db) s, addSnippet db s]

/-- Index-removal step of `delete_snippet` (§4.3 Delete, step 2): the keys
are computed from the just-read record. -/
def deindexStep (db : Db) (s : Snippet) (i : Nat) : Db :=
  { db with
    languageIdx := removeIdx db.languageIdx s.language i,
    tagIdx := s.tags.foldl (fun t tag => removeIdx t tag i) db.tagIdx }

/-- Modelled from the spec: `database.rs` is not under `src/`.
`delete_snippet` follows §4.3 Delete: read the record (`NotFound` if
absent, aborting with no state change), remove its index entries, then
remove the record.  The counter is untouched. -/
def deleteSnippet (db : Db) (i : Nat) : Except LostTheWay Unit × Db :=
  match getSnippet db i with
  | none => (.error (.NotFound i), db)
  | some s =>
    let db1 := deindexStep db s i
    (.ok (), { db1 with snippets := removeRecord db1.snippets i })

/-- Modelled from the spec: `snippet.rs` is not under `src/`.
`Snippet::from_user` builds a record from the interactive collaborator's
input at the given identifier; on an edit (`old = some _`) the creation
timestamp is preserved and `updated` is set to the current time (§3
lifecycle: edit preserves the identifier, updates `modified_at`). -/
def fromUser (index : Nat) (inp : SnipInput) (old : Option Snippet) (now : Nat) :
    Snippet :=
  { index := index
    description := inp.description
    language := inp.language
    tags := inp.tags
    code := inp.code
    date := (old.map (fun o => o.date)).getD now
    updated := now }

/-- `TheWay::the_way` (mod.rs): adds a new snippet.  The identifier passed to
`Snippet::from_user` is `get_current_snippet_index() + 1`, exactly as in the
source. -/
def theWay (db : Db) (inp : SnipInput) (now : Nat) : Db :=
  addSnippet db (fromUser (getCurrentSnippetIndex db + 1) inp none now)

/-- `TheWay::delete` (mod.rs): with `force` the confirmation is `"Y"`;
otherwise the prompt loop runs until the reply is `"Y"` or `"N"` (here the
final reply is a parameter).  On `"Y"` it calls `delete_snippet`; on `"N"`
it fails with `DoingNothing`. -/
def deleteCmd (force : Bool) (reply : String) (db : Db) (index : Nat) :
    Except LostTheWay Unit × Db :=
  let sure := if force then "Y" else reply
  if sure = "Y" then deleteSnippet db index
  else (.error (.DoingNothing "I'm a coward."), db)

/-- `TheWay::edit` (mod.rs): read the old snippet (`?` surfaces `NotFound`
before anything is mutated), build the replacement at the same identifier,
then `delete_snippet` followed by `add_snippet`, each error propagated
unchanged by `?`.  `addFails` injects the one failure mode the Record
Store's `put` has (§4.1: an underlying-medium I/O error), at the add half's
write. -/
def editCmd (addFails : Bool) (db : Db) (index : Nat) (inp : SnipInput)
    (now : Nat) : Except LostTheWay Unit × Db :=
  match getSnippet db index with
  | none => (.error (.NotFound index), db)
  | some old =>
    let newSnippet := fromUser index inp (some old) now
    match deleteSnippet db index with
    | (.error e, db1) => (.error e, db1)
    | (.ok _, db1) =>
      if addFails then (.error .StorageIOError, db1)
      else (.ok (), addSnippet db1 newSnippet)

/-- `TheWay::view` (mod.rs): reads the snippet (`NotFound` via `?` if
absent); the pretty-printing itself belongs to an excluded collaborator
(§1), so the model returns the record that would be printed.  No state is
touched (`&self`). -/
def viewCmd (db : Db) (index : Nat) : Except LostTheWay Snippet :=
  match getSnippet db index with
  | none => .error (.NotFound index)
  | some s => .ok s

/-- `TheWay::copy` (mod.rs): reads the snippet (`NotFound` via `?` if
absent) and hands its code body to the clipboard collaborator.  No state is
touched (`&self`). -/
def copyCmd (db : Db) (index : Nat) : Except LostTheWay String :=
  match getSnippet db index with
  | none => .error (.NotFound index)
  | some s => .ok s.code

/-- Modelled from the spec: `snippet.rs` is not under `src/`.
`Snippet::read` parses the bulk file records; per §6 only `description`,
`language`, `tags`, `code` are trusted — identifier and timestamp values
present in the file are ignored, the identifier left at its default and
both timestamps freshly assigned. -/
def readOne (f : SnippetFile) (now : Nat) : Snippet :=
  { index := 0
    description := f.description
    language := f.language
    tags := f.tags
    code := f.code
    date := now
    updated := now }

def readSnippets (files : List SnippetFile) (now : Nat) : List Snippet :=
  files.map (fun f => readOne f now)

/-- One iteration of the Import arm of `TheWay::run` (mod.rs): set the
snippet's identifier to `get_current_snippet_index() + 1`, `add_snippet`,
then `increment_snippet_index`.  Returns the identifier assigned. -/
def importStep (db : Db) (s : Snippet) : Db × Nat :=
  let idx := getCurrentSnippetIndex db + 1
  (incrementSnippetIndex (addSnippet db { s with index := idx }), idx)

/-- The Import arm's loop over the parsed snippets, returning the final
state and the identifiers assigned, in order. -/
def importRun : Db → List Snippet → Db × List Nat
  | db, [] => (db, [])
  | db, s :: rest =>
    let p := importStep db s
    let q := importRun p.1 rest
    (q.1, p.2 :: q.2)

/-- The persistent file system seen by `fs::File::open`: an association
list from path to the (already parsed) record list the file holds. -/
abbrev Fs := List (String × List SnippetFile)

def readFs (fs : Fs) (p : String) : Option (List SnippetFile) :=
  match fs with
  | [] => none
  | (q, c) :: rest => if q = p then some c else readFs rest p

/-- The Import arm of `TheWay::run` for a named file: `TheWay::import` opens
the file (`fs::File::open` — an I/O error if the path does not exist),
parses it with `Snippet::read`, then runs the add loop. -/
def importCmd (fs : Fs) (p : String) (db : Db) (now : Nat) :
    Except LostTheWay (Db × List Nat) :=
  match readFs fs p with
  | none => .error .StorageIOError
  | some files => .ok (importRun db (readSnippets files now))

/-- Modelled from the spec: `filter.rs` is not under `src/`.  The filter
specification of §4.4: optional exact language, optional tag set (all tags
required), optional inclusive date range on `created_at`, optional fuzzy
text pattern on the description. -/
structure Filters where
  language : Option String
  tags : Option (List String)
  dateFrom : Option Nat
  dateTo : Option Nat
  textQuery : Option String
deriving Repr, DecidableEq

def noFilters : Filters :=
  { language := none, tags := none, dateFrom := none, dateTo := none,
    textQuery := none }

/-- Ascending insertion, used to present the full scan in ascending
identifier order (§4.1 `scan`). -/
def insertSorted (i : Nat) : List Nat → List Nat
  | [] => [i]
  | j :: rest => if i ≤ j then i :: j :: rest else j :: insertSorted i rest

/-- Identifiers of a full Record Store scan, ascending (§4.1 `scan`). -/
def scanIds (db : Db) : List Nat :=
  (db.snippets.map Prod.fst).foldr insertSorted []

/-- Set intersection on identifier lists (kept as filtering the left
operand). -/
def interIds (a b : List Nat) : List Nat := a.filter (fun i => i ∈ b)

/-- Intersection of the tag-index sets of a nonempty tag list (§4.4
step 1). -/
def tagCandidates (db : Db) (t : String) (ts : List String) : List Nat :=
  ts.foldl (fun acc tag => interIds acc (lookupIdx db.tagIdx tag))
    (lookupIdx db.tagIdx t)

/-- Candidate identifiers before materialization (§4.4 steps 1–2). -/
def candidateIds (db : Db) (f : Filters) : List Nat :=
  match f.language with
  | some lang =>
    let base := lookupIdx db.languageIdx lang
    match f.tags with
    | some (t :: ts) => interIds base (tagCandidates db t ts)
    | _ => base
  | none =>
    match f.tags with
    | some (t :: ts) => tagCandidates db t ts
    | _ => scanIds db

/-- Subsequence test on character lists: the essence of the assumed
standard fuzzy matcher (§1 non-goals). -/
def isSubseq : List Char → List Char → Bool
  | [], _ => true
  | _ :: _, [] => false
  | a :: as, b :: bs => if a = b then isSubseq as bs else isSubseq (a :: as) bs

def fuzzyMatch (pattern s : String) : Bool := isSubseq pattern.toList s.toList

/-- The residual date predicate (§4.4 step 4). -/
def dateOk (f : Filters) (s : Snippet) : Bool :=
  (match f.dateFrom with | none => true | some a => a ≤ s.date) &&
  (match f.dateTo with | none => true | some b => s.date ≤ b)

/-- Modelled from the spec: `filter.rs` (`TheWay::filter_snippets`) is not
under `src/`.  §4.4: narrow candidates by index (or scan), materialize via
`get` silently dropping stale identifiers, then apply the residual date
and fuzzy-text predicates. -/
def filterSnippets (db : Db) (f : Filters) : List Snippet :=
  let materialized := (candidateIds db f).filterMap (getSnippet db)
  let dated := materialized.filter (dateOk f)
  match f.textQuery with
  | none => dated
  | some q => dated.filter (fun s => fuzzyMatch q s.description)

/-- `TheWay::export` (mod.rs).  For a named path the writer handle is
obtained with `fs::File::open`: a missing path is an immediate I/O error
(nothing written); an existing path yields a read-only handle, so the
serialized bytes stay in the `BufWriter` and the flush error is discarded
when the writer is dropped — the call returns success and the file's
contents are unchanged (for exports exceeding the buffer capacity an I/O
error would surface instead; the theorems below use small exports).
Without a path the records go to stdout. -/
def exportCmd (db : Db) (f : Filters) (file : Option String) (fs : Fs) :
    Except LostTheWay Unit × Fs :=
  match file with
  | none =>
    let _ := filterSnippets db f
    (.ok (), fs)
  | some p =>
    match readFs fs p with
    | none => (.error .StorageIOError, fs)
    | some _ =>
      let _ := filterSnippets db f
      (.ok (), fs)

/-- `TheWay::clear` (mod.rs): with `force` the confirmation is `"Y"`,
otherwise the prompt's final reply decides.  On `"Y"` every file under the
database directory is removed (erasing the record tree and both index
trees) and `reset_index` returns the counter to its initial value; on
`"N"` it fails with `DoingNothing` and changes nothing. -/
def clearCmd (force : Bool) (reply : String) (db : Db) :
    Except LostTheWay Unit × Db :=
  let sure := if force then "Y" else reply
  if sure = "Y" then
    (.ok (), resetIndex { snippets := [], languageIdx := [], tagIdx := [],
                          counter := db.counter })
  else (.error (.DoingNothing "I'm a coward."), db)

/-- The mutating snippet operations reachable from `TheWay::run`, for
trace-level statements: adding (`new`), bulk import of a parsed file, and
deletion.  `now` is the wall-clock reading the operation runs at. -/
inductive Op where
  | new (inp : SnipInput) (now : Nat)
  | imp (files : List SnippetFile) (now : Nat)
  | del (index : Nat)
deriving Repr

/-- Run one operation; returns the new state and the identifiers assigned
by the operation, in assignment order. -/
def runOp (db : Db) : Op → Db × List Nat
  | .new inp now => (theWay db inp now, [getCurrentSnippetIndex db + 1])
  | .imp files now => importRun db (readSnippets files now)
  | .del i => ((deleteSnippet db i).2, [])

/-- Run a sequence of operations, concatenating the assigned
identifiers. -/
def runOps : Db → List Op → Db × List Nat
  | db, [] => (db, [])
  | db, op :: rest =>
    let p := runOp db op
    let q := runOps p.1 rest
    (q.1, p.2 ++ q.2)

/-- The counter invariant of §3: the persisted counter is at least every
identifier present in the Record Store. -/
def counterInv (db : Db) : Prop :=
  ∀ p ∈ db.snippets, p.1 ≤ db.counter

instance (db : Db) : Decidable (counterInv db) := by
  unfold counterInv; infer_instance

/-- The tag half of the secondary-index invariant (§3): an identifier sits
under a tag key exactly when its record exists and carries that tag. -/
def tagConsistent (db : Db) : Prop :=
  ∀ t i, i ∈ lookupIdx db.tagIdx t ↔
    ∃ s, getSnippet db i = some s ∧ t ∈ s.tags

instance {ε α : Type} [DecidableEq ε] [DecidableEq α] :
    DecidableEq (Except ε α) := fun a b =>
  match a, b with
  | .ok x, .ok y =>
    if h : x = y then isTrue (by rw [h])
    else isFalse (by intro hc; cases hc; exact h rfl)
  | .error x, .error y =>
    if h : x = y then isTrue (by rw [h])
    else isFalse (by intro hc; cases hc; exact h rfl)
  | .ok _, .error _ => isFalse (by intro hc; cases hc)
  | .error _, .ok _ => isFalse (by intro hc; cases hc)

theorem lookupRecord_putRecord_self (l : List (Nat × Snippet)) (i : Nat)
    (s : Snippet) : lookupRecord (putRecord l i s) i = some s := by
  induction l with
  | nil => simp [putRecord, lookupRecord]
  | cons p rest ih =>
    cases p with
    | mk a b =>
      by_cases ha : a = i
      · simp [putRecord, ha, lookupRecord]
      · simp [putRecord, ha, lookupRecord, ih]

theorem lookupRecord_putRecord_ne (l : List (Nat × Snippet)) {i j : Nat}
    (s : Snippet) (h : i ≠ j) :
    lookupRecord (putRecord l j s) i = lookupRecord l i := by
  induction l with
  | nil => simp [putRecord, lookupRecord, Ne.symm h]
  | cons p rest ih =>
    cases p with
    | mk a b =>
      by_cases ha : a = j
      · subst ha
        simp [putRecord, lookupRecord, Ne.symm h, fun g : a = i => h (g ▸ rfl)]
      · simp [putRecord, ha, lookupRecord, ih]

theorem mem_putRecord {l : List (Nat × Snippet)} {i : Nat} {s : Snippet}
    {p : Nat × Snippet} (h : p ∈ putRecord l i s) : p = (i, s) ∨ p ∈ l := by
  induction l with
  | nil => simpa [putRecord] using h
  | cons q rest ih =>
    cases q with
    | mk a b =>
      by_cases ha : a = i
      · simp only [putRecord, if_pos ha] at h
        rcases List.mem_cons.mp h with h1 | h1
        · exact Or.inl h1
        · exact Or.inr (List.mem_cons_of_mem _ h1)
      · simp only [putRecord, if_neg ha] at h
        rcases List.mem_cons.mp h with h1 | h1
        · exact Or.inr (h1 ▸ List.mem_cons_self _ _)
        · rcases ih h1 with h2 | h2
          · exact Or.inl h2
          · exact Or.inr (List.mem_cons_of_mem _ h2)

theorem lookupRecord_removeRecord_self (l : List (Nat × Snippet)) (i : Nat) :
    lookupRecord (removeRecord l i) i = none := by
  induction l with
  | nil => rfl
  | cons p rest ih =>
    cases p with
    | mk a b =>
      by_cases ha : a = i
      · simp only [removeRecord, if_pos ha]
        exact ih
      · simp only [removeRecord, if_neg ha, lookupRecord, if_neg ha]
        exact ih

theorem mem_removeRecord {l : List (Nat × Snippet)} {i : Nat}
    {p : Nat × Snippet} (h : p ∈ removeRecord l i) : p ∈ l := by
  induction l with
  | nil => simp [removeRecord] at h
  | cons q rest ih =>
    cases q with
    | mk a b =>
      by_cases ha : a = i
      · simp only [removeRecord, if_pos ha] at h
        exact List.mem_cons_of_mem _ (ih h)
      · simp only [removeRecord, if_neg ha] at h
        rcases List.mem_cons.mp h with h1 | h1
        · exact h1 ▸ List.mem_cons_self _ _
        · exact List.mem_cons_of_mem _ (ih h1)

theorem lookupRecord_mem {l : List (Nat × Snippet)} {i : Nat} {s : Snippet}
    (h : lookupRecord l i = some s) : (i, s) ∈ l := by
  induction l with
  | nil => simp [lookupRecord] at h
  | cons p rest ih =>
    cases p with
    | mk a b =>
      by_cases ha : a = i
      · subst ha
        simp [lookupRecord] at h
        subst h
        exact List.mem_cons_self _ _
      · simp [lookupRecord, ha] at h
        exact List.mem_cons_of_mem _ (ih h)

theorem lookupRecord_eq_none {l : List (Nat × Snippet)} {i : Nat}
    (h : ∀ p ∈ l, p.1 ≠ i) : lookupRecord l i = none := by
  induction l with
  | nil => rfl
  | cons p rest ih =>
    cases p with
    | mk a b =>
      have ha : a ≠ i := h (a, b) (List.mem_cons_self _ _)
      simp only [lookupRecord, if_neg ha]
      exact ih fun q hq => h q (List.mem_cons_of_mem _ hq)

theorem addSnippet_counter (db : Db) (s : Snippet) :
    (addSnippet db s).counter = db.counter + 1 := rfl

theorem addSnippet_snippets (db : Db) (s : Snippet) :
    (addSnippet db s).snippets = putRecord db.snippets s.index s := rfl

theorem getSnippet_addSnippet_self (db : Db) (s : Snippet) :
    getSnippet (addSnippet db s) s.index = some s :=
  lookupRecord_putRecord_self _ _ _

theorem getSnippet_addSnippet_ne (db : Db) (s : Snippet) {i : Nat}
    (h : i ≠ s.index) : getSnippet (addSnippet db s) i = getSnippet db i :=
  lookupRecord_putRecord_ne _ _ h

theorem counterInv_addSnippet {db : Db} {s : Snippet} (h : counterInv db)
    (hs : s.index ≤ db.counter + 1) : counterInv (addSnippet db s) := by
  intro p hp
  rw [addSnippet_snippets] at hp
  rw [addSnippet_counter]
  rcases mem_putRecord hp with h1 | h1
  · rw [h1]; exact hs
  · exact le_trans (h p h1) (Nat.le_succ _)

theorem counterInv_increment {db : Db} (h : counterInv db) :
    counterInv (incrementSnippetIndex db) := fun p hp =>
  le_trans (h p hp) (Nat.le_succ _)

theorem deleteSnippet_counter (db : Db) (i : Nat) :
    ((deleteSnippet db i).2).counter = db.counter := by
  unfold deleteSnippet
  cases getSnippet db i <;> rfl

theorem deleteSnippet_snippets_some {db : Db} {i : Nat} {s : Snippet}
    (h : getSnippet db i = some s) :
    (deleteSnippet db i).1 = .ok () ∧
      ((deleteSnippet db i).2).snippets = removeRecord db.snippets i := by
  unfold deleteSnippet
  rw [h]
  exact ⟨rfl, rfl⟩

theorem counterInv_deleteSnippet {db : Db} (h : counterInv db) (i : Nat) :
    counterInv ((deleteSnippet db i).2) := by
  unfold deleteSnippet
  cases hg : getSnippet db i with
  | none => exact h
  | some s =>
    intro p hp
    simp only [deindexStep] at hp
    exact h p (mem_removeRecord hp)

theorem importStep_counter (db : Db) (s : Snippet) :
    ((importStep db s).1).counter = db.counter + 2 := rfl

theorem importStep_assigned (db : Db) (s : Snippet) :
    (importStep db s).2 = getCurrentSnippetIndex db + 1 := rfl

theorem importRun_counter_mono (l : List Snippet) (db : Db) :
    db.counter ≤ ((importRun db l).1).counter := by
  induction l generalizing db with
  | nil => exact le_refl _
  | cons s rest ih =>
    calc db.counter ≤ db.counter + 2 := Nat.le_add_right _ _
    _ = ((importStep db s).1).counter := (importStep_counter db s).symm
    _ ≤ _ := ih _

theorem counterInv_importRun {db : Db} (h : counterInv db) (l : List Snippet) :
    counterInv ((importRun db l).1) := by
  induction l generalizing db with
  | nil => exact h
  | cons s rest ih =>
    exact ih (counterInv_increment (counterInv_addSnippet h (le_refl _)))

theorem counterInv_theWay {db : Db} (h : counterInv db) (inp : SnipInput)
    (now : Nat) : counterInv (theWay db inp now) :=
  counterInv_addSnippet h (le_refl _)

/-- C4.  For an identifier with no record, each of delete (confirmed or
forced), edit, view and copy surfaces `NotFound` naming that identifier,
and the store, the indices and the counter are left exactly as they were
(view and copy take the state immutably and return no state at all). -/
theorem notFound_clean_abort (db : Db) (index : Nat)
    (h : getSnippet db index = none) :
    (∀ force reply, (if force then "Y" else reply) = "Y" →
      deleteCmd force reply db index = (.error (.NotFound index), db)) ∧
    (∀ addFails inp now,
      editCmd addFails db index inp now = (.error (.NotFound index), db)) ∧
    viewCmd db index = .error (.NotFound index) ∧
    copyCmd db index = .error (.NotFound index) := by
  refine ⟨fun force reply hf => ?_, fun addFails inp now => ?_, ?_, ?_⟩
  · simp [deleteCmd, hf, deleteSnippet, h]
  · simp only [editCmd, h]
  · simp only [viewCmd, h]
  · simp only [copyCmd, h]

/-- Witness for C4 at the empty store and identifier 1. -/
theorem notFound_clean_abort_witness :
    getSnippet emptyDb 1 = none ∧
    deleteCmd true "" emptyDb 1 = (.error (.NotFound 1), emptyDb) ∧
    editCmd false emptyDb 1 ⟨"d", "rust", ["a"], "c"⟩ 5 =
      (.error (.NotFound 1), emptyDb) ∧
    viewCmd emptyDb 1 = .error (.NotFound 1) ∧
    copyCmd emptyDb 1 = .error (.NotFound 1) := by
  have h := notFound_clean_abort emptyDb 1 rfl
  exact ⟨rfl, h.1 true "" rfl, h.2.1 false ⟨"d", "rust", ["a"], "c"⟩ 5,
    h.2.2.1, h.2.2.2⟩

/-- C10.  For an export naming an output path, the handle comes from
`fs::File::open`, so a path with no existing file yields an I/O error and
the file system is untouched. -/
theorem export_missing_file_is_io_error (db : Db) (f : Filters) (p : String)
    (fs : Fs) (h : readFs fs p = none) :
    exportCmd db f (some p) fs = (.error .StorageIOError, fs) := by
  simp only [exportCmd, h]

/-- Witness for C10 on the empty file system. -/
theorem export_missing_file_is_io_error_witness :
    readFs [] "snippets.json" = none ∧
    exportCmd emptyDb noFilters (some "snippets.json") [] =
      (.error .StorageIOError, []) :=
  ⟨rfl, export_missing_file_is_io_error emptyDb noFilters "snippets.json" []
    rfl⟩

/-- C9.  A confirmed clear erases every record, every secondary-index
entry and the counter (the resulting state is the initial one), the next
added snippet after a clear receives identifier 1, and no other mutating
operation ever lowers the counter — so clear is the only operation that
can return the counter to its initial value. -/
theorem clear_erases_all_and_resets_counter (db : Db) :
    (∀ force reply, (if force then "Y" else reply) = "Y" →
      clearCmd force reply db = (.ok (), emptyDb)) ∧
    (∀ inp now, getSnippet (theWay emptyDb inp now) 1 =
      some (fromUser 1 inp none now)) ∧
    (∀ inp now, db.counter ≤ (theWay db inp now).counter) ∧
    (∀ l, db.counter ≤ ((importRun db l).1).counter) ∧
    (∀ i, db.counter ≤ ((deleteSnippet db i).2).counter) ∧
    (∀ force reply i, db.counter ≤ ((deleteCmd force reply db i).2).counter) ∧
    (∀ addFails i inp now,
      db.counter ≤ ((editCmd addFails db i inp now).2).counter) := by
  refine ⟨fun force reply hf => ?_, fun inp now => ?_, fun inp now => ?_,
    fun l => importRun_counter_mono l db,
    fun i => le_of_eq (deleteSnippet_counter db i).symm,
    fun force reply i => ?_, fun addFails i inp now => ?_⟩
  · simp [clearCmd, hf, resetIndex, emptyDb]
  · exact getSnippet_addSnippet_self emptyDb _
  · exact Nat.le_succ _
  · unfold deleteCmd
    by_cases hf : (if force then "Y" else reply) = "Y"
    · rw [if_pos hf]
      exact le_of_eq (deleteSnippet_counter db i).symm
    · rw [if_neg hf]
  · unfold editCmd
    cases hg : getSnippet db i with
    | none => exact le_refl _
    | some old =>
      rcases hdl : deleteSnippet db i with ⟨r, db1⟩
      have hdb1 : db1.counter = db.counter := by
        have h2 := deleteSnippet_counter db i
        rw [hdl] at h2
        exact h2
      cases r with
      | error e => simp [hdb1]
      | ok u =>
        cases addFails with
        | true => simp [hdb1]
        | false =>
          simp only [Bool.false_eq_true, if_false, addSnippet_counter, hdb1]
          exact Nat.le_succ _

/-- A sample interactive input. -/
def sampleInp : SnipInput :=
  { description := "print hello", language := "rust",
    tags := ["cli", "demo"], code := "println" }

/-- A second sample interactive input. -/
def sampleInp2 : SnipInput :=
  { description := "read a file", language := "go",
    tags := ["files"], code := "os.ReadFile" }

/-- A store holding one snippet, added at time 10. -/
def dbOne : Db := theWay emptyDb sampleInp 10

/-- C2.  Editing an existing identifier keeps that identifier: the
replacement record is stored at the same `index` (which, being at most the
current counter, is an already-reserved value, not a fresh allocation),
its creation timestamp is the old one, and `modified_at` becomes the edit
time — hence at least the prior `modified_at` whenever the clock has not
run backwards. -/
theorem edit_preserves_identifier_updates_modified (db : Db) (index : Nat)
    (inp : SnipInput) (now : Nat) (old : Snippet)
    (h : getSnippet db index = some old) (hinv : counterInv db) :
    (editCmd false db index inp now).1 = .ok () ∧
    getSnippet (editCmd false db index inp now).2 index =
      some (fromUser index inp (some old) now) ∧
    (fromUser index inp (some old) now).index = index ∧
    (fromUser index inp (some old) now).date = old.date ∧
    (fromUser index inp (some old) now).updated = now ∧
    index ≤ db.counter ∧
    (old.updated ≤ now →
      old.updated ≤ (fromUser index inp (some old) now).updated) := by
  have hle : index ≤ db.counter := hinv (index, old) (lookupRecord_mem h)
  simp only [editCmd, h, deleteSnippet, Bool.false_eq_true, if_false]
  refine ⟨by simp, getSnippet_addSnippet_self _ _, rfl, rfl, rfl, hle,
    fun g => g⟩

/-- Witness for C2: editing snippet 1 of the one-snippet store at time
12. -/
theorem edit_preserves_identifier_updates_modified_witness :
    getSnippet dbOne 1 = some (fromUser 1 sampleInp none 10) ∧
    counterInv dbOne ∧
    (editCmd false dbOne 1 sampleInp2 12).1 = .ok () ∧
    getSnippet (editCmd false dbOne 1 sampleInp2 12).2 1 =
      some (fromUser 1 sampleInp2 (some (fromUser 1 sampleInp none 10)) 12) := by
  have h := edit_preserves_identifier_updates_modified dbOne 1 sampleInp2 12
    (fromUser 1 sampleInp none 10) rfl (by decide)
  exact ⟨rfl, by decide, h.1, h.2.1⟩

/-- C3 counterexample: on the one-snippet store, when the add half of an
edit fails after the delete half succeeded, the surfaced error is the
storage error itself, not `PartialMutationFailure` — and the record is
indeed gone. -/
theorem edit_add_failure_error_counterexample :
    (editCmd true dbOne 1 sampleInp2 12).1 = .error .StorageIOError ∧
    (editCmd true dbOne 1 sampleInp2 12).1 ≠ .error .PartialMutationFailure ∧
    getSnippet (editCmd true dbOne 1 sampleInp2 12).2 1 = none := by
  decide

/-- C3 amended: when the delete half of an edit succeeded and the add half
fails, the caller receives the add half's own storage error, propagated
unchanged by `?` — there is no distinct partial-mutation variant — and the
record at the edited identifier is gone. -/
theorem edit_add_failure_surfaces_storage_error (db : Db) (index : Nat)
    (inp : SnipInput) (now : Nat) (old : Snippet)
    (h : getSnippet db index = some old) :
    (editCmd true db index inp now).1 = .error .StorageIOError ∧
    (editCmd true db index inp now).1 ≠ .error .PartialMutationFailure ∧
    getSnippet (editCmd true db index inp now).2 index = none := by
  simp only [editCmd, h, deleteSnippet, if_true]
  refine ⟨by simp, by simp, ?_⟩
  exact lookupRecord_removeRecord_self _ _

/-- Witness for C3's amended statement on the one-snippet store. -/
theorem edit_add_failure_surfaces_storage_error_witness :
    getSnippet dbOne 1 = some (fromUser 1 sampleInp none 10) ∧
    (editCmd true dbOne 1 sampleInp 11).1 = .error .StorageIOError ∧
    getSnippet (editCmd true dbOne 1 sampleInp 11).2 1 = none := by
  have h := edit_add_failure_surfaces_storage_error dbOne 1 sampleInp 11
    (fromUser 1 sampleInp none 10) rfl
  exact ⟨rfl, h.1, h.2.2⟩

/-- C1.  From any state satisfying the counter invariant, adding a record
at the freshly computed identifier `counter + 1` keeps the invariant at
every intermediate state of `add_snippet`; the record is absent before and
after the reservation step and first visible only after it — i.e. the
counter is incremented strictly before the new record becomes visible.
The invariant is preserved by the `new` command and by the whole import
loop. -/
theorem counter_invariant_reserve_before_visible (db : Db) (s : Snippet)
    (hinv : counterInv db) (hidx : s.index = db.counter + 1) :
    (∀ d ∈ addSnippetStates db s, counterInv d) ∧
    getSnippet db s.index = none ∧
    getSnippet (reserveStep db) s.index = none ∧
    (reserveStep db).counter = db.counter + 1 ∧
    getSnippet (writeStep (reserveStep db) s) s.index = some s ∧
    (∀ inp now, counterInv (theWay db inp now)) ∧
    (∀ l, counterInv ((importRun db l).1)) := by
  have habsent : getSnippet db s.index = none := by
    apply lookupRecord_eq_none
    intro p hp
    have := hinv p hp
    omega
  refine ⟨?_, habsent, habsent, rfl, lookupRecord_putRecord_self _ _ _,
    fun inp now => counterInv_theWay hinv inp now,
    fun l => counterInv_importRun hinv l⟩
  intro d hd
  simp only [addSnippetStates, List.mem_cons, List.not_mem_nil, or_false] at hd
  rcases hd with rfl | rfl | rfl | rfl
  · exact hinv
  · exact fun p hp => le_trans (hinv p hp) (Nat.le_succ _)
  · intro p hp
    rcases mem_putRecord hp with h1 | h1
    · rw [h1]; exact le_of_eq hidx
    · exact le_trans (hinv p h1) (Nat.le_succ _)
  · exact counterInv_addSnippet hinv (le_of_eq hidx)

/-- Witness for C1 at the empty store. -/
theorem counter_invariant_reserve_before_visible_witness :
    counterInv emptyDb ∧
    (fromUser 1 sampleInp none 3).index = emptyDb.counter + 1 ∧
    getSnippet (reserveStep emptyDb) (fromUser 1 sampleInp none 3).index =
      none ∧
    getSnippet (writeStep (reserveStep emptyDb) (fromUser 1 sampleInp none 3))
      (fromUser 1 sampleInp none 3).index = some (fromUser 1 sampleInp none 3) := by
  have h := counter_invariant_reserve_before_visible emptyDb
    (fromUser 1 sampleInp none 3) (by decide) rfl
  exact ⟨by decide, rfl, h.2.2.1, h.2.2.2.2.1⟩

theorem theWay_counter (db : Db) (inp : SnipInput) (now : Nat) :
    (theWay db inp now).counter = db.counter + 1 := rfl

theorem importRun_assigned (l : List Snippet) (db : Db) :
    List.Pairwise (· < ·) ((importRun db l).2) ∧
    ∀ i ∈ (importRun db l).2,
      db.counter < i ∧ i ≤ ((importRun db l).1).counter := by
  induction l generalizing db with
  | nil => simp [importRun]
  | cons s rest ih =>
    have h1 : (importRun db (s :: rest)).2 =
        (db.counter + 1) :: (importRun ((importStep db s).1) rest).2 := rfl
    have h0 : (importRun db (s :: rest)).1 =
        (importRun ((importStep db s).1) rest).1 := rfl
    have hc : ((importStep db s).1).counter = db.counter + 2 := rfl
    obtain ⟨ihp, ihb⟩ := ih ((importStep db s).1)
    rw [h0, h1]
    constructor
    · refine List.pairwise_cons.mpr ⟨fun i hi => ?_, ihp⟩
      have := (ihb i hi).1
      omega
    · intro i hi
      rcases List.mem_cons.mp hi with rfl | hi
      · have := importRun_counter_mono rest ((importStep db s).1)
        constructor
        · omega
        · omega
      · have h2 := ihb i hi
        exact ⟨by omega, h2.2⟩

theorem runOp_assigned (db : Db) (op : Op) :
    List.Pairwise (· < ·) ((runOp db op).2) ∧
    (∀ i ∈ (runOp db op).2,
      db.counter < i ∧ i ≤ ((runOp db op).1).counter) ∧
    db.counter ≤ ((runOp db op).1).counter := by
  cases op with
  | new inp now =>
    refine ⟨List.pairwise_singleton _ _, fun i hi => ?_, ?_⟩
    · simp only [runOp, List.mem_singleton] at hi
      subst hi
      simp only [runOp, theWay_counter, getCurrentSnippetIndex]
      omega
    · simp only [runOp, theWay_counter]
      omega
  | imp files now =>
    have h := importRun_assigned (readSnippets files now) db
    exact ⟨h.1, h.2, importRun_counter_mono _ _⟩
  | del i =>
    refine ⟨List.Pairwise.nil, fun j hj => ?_, ?_⟩
    · simp [runOp] at hj
    · simp only [runOp, deleteSnippet_counter]
      exact le_refl _

theorem runOps_assigned (ops : List Op) (db : Db) :
    List.Pairwise (· < ·) ((runOps db ops).2) ∧
    (∀ i ∈ (runOps db ops).2,
      db.counter < i ∧ i ≤ ((runOps db ops).1).counter) ∧
    db.counter ≤ ((runOps db ops).1).counter := by
  induction ops generalizing db with
  | nil => simp [runOps]
  | cons op rest ih =>
    obtain ⟨ihp, ihb, ihc⟩ := ih ((runOp db op).1)
    obtain ⟨hp, hb, hc⟩ := runOp_assigned db op
    have e2 : (runOps db (op :: rest)).2 =
        (runOp db op).2 ++ (runOps ((runOp db op).1) rest).2 := rfl
    have e1 : (runOps db (op :: rest)).1 =
        (runOps ((runOp db op).1) rest).1 := rfl
    rw [e1, e2]
    refine ⟨?_, ?_, le_trans hc ihc⟩
    · refine List.pairwise_append.mpr ⟨hp, ihp, fun a ha b hb2 => ?_⟩
      have h1 := (hb a ha).2
      have h2 := (ihb b hb2).1
      omega
    · intro i hi
      rcases List.mem_append.mp hi with hi | hi
      · exact ⟨(hb i hi).1, le_trans (hb i hi).2 ihc⟩
      · exact ⟨lt_of_le_of_lt hc (ihb i hi).1, (ihb i hi).2⟩

/-- C5.  Along any sequence of adds, imports and deletes from any starting
state, the identifiers handed out are strictly increasing in assignment
order (each later one exceeds each earlier one), hence no identifier is
ever assigned twice — deletion never frees an identifier for reuse,
because the counter never goes back down. -/
theorem assigned_identifiers_strictly_increasing (db : Db) (ops : List Op) :
    List.Pairwise (· < ·) ((runOps db ops).2) ∧
    ((runOps db ops).2).Nodup :=
  ⟨(runOps_assigned ops db).1,
   ((runOps_assigned ops db).1).imp fun h => Nat.ne_of_lt h⟩

/-- The four fields of a bulk-file record that the program trusts (§6). -/
def fileData (f : SnippetFile) : String × String × List String × String :=
  (f.description, f.language, f.tags, f.code)

theorem getSnippet_increment (db : Db) (i : Nat) :
    getSnippet (incrementSnippetIndex db) i = getSnippet db i := rfl

theorem getSnippet_importStep_self (db : Db) (s : Snippet) :
    getSnippet ((importStep db s).1) (db.counter + 1) =
      some { s with index := db.counter + 1 } :=
  getSnippet_addSnippet_self db { s with index := db.counter + 1 }

theorem importRun_preserves (l : List Snippet) (db : Db) {i : Nat}
    {s : Snippet} (hle : i ≤ db.counter) (h : getSnippet db i = some s) :
    getSnippet ((importRun db l).1) i = some s := by
  induction l generalizing db with
  | nil => exact h
  | cons t rest ih =>
    have e1 : (importRun db (t :: rest)).1 =
        (importRun ((importStep db t).1) rest).1 := rfl
    rw [e1]
    have hc : ((importStep db t).1).counter = db.counter + 2 := rfl
    refine ih ((importStep db t).1) (by omega) ?_
    have hne : i ≠ ({ t with index := db.counter + 1 } : Snippet).index := by
      simp only
      omega
    calc getSnippet ((importStep db t).1) i
        = getSnippet (addSnippet db { t with index := db.counter + 1 }) i :=
          getSnippet_increment _ i
      _ = getSnippet db i := getSnippet_addSnippet_ne db _ hne
      _ = some s := h

theorem importRun_stored (files : List SnippetFile) (now : Nat) (db : Db)
    (i : Nat) (hi : i ∈ (importRun db (readSnippets files now)).2) :
    ∃ s, getSnippet ((importRun db (readSnippets files now)).1) i = some s ∧
      s.index = i ∧ s.date = now ∧ s.updated = now := by
  induction files generalizing db with
  | nil => simp [readSnippets, importRun] at hi
  | cons f rest ih =>
    have e2 : (importRun db (readSnippets (f :: rest) now)).2 =
        (db.counter + 1) ::
          (importRun ((importStep db (readOne f now)).1)
            (readSnippets rest now)).2 := rfl
    have e1 : (importRun db (readSnippets (f :: rest) now)).1 =
        (importRun ((importStep db (readOne f now)).1)
          (readSnippets rest now)).1 := rfl
    rw [e2] at hi
    rw [e1]
    rcases List.mem_cons.mp hi with rfl | hi2
    · refine ⟨{ readOne f now with index := db.counter + 1 },
        ?_, rfl, rfl, rfl⟩
      refine importRun_preserves _ _ (by
        have : ((importStep db (readOne f now)).1).counter =
          db.counter + 2 := rfl
        omega) ?_
      exact getSnippet_importStep_self db _
    · exact ih _ hi2

theorem readSnippets_only_data (files1 files2 : List SnippetFile) (now : Nat)
    (h : files1.map fileData = files2.map fileData) :
    readSnippets files1 now = readSnippets files2 now := by
  induction files1 generalizing files2 with
  | nil =>
    cases files2 with
    | nil => rfl
    | cons g gs => simp [fileData] at h
  | cons f fs ih =>
    cases files2 with
    | nil => simp [fileData] at h
    | cons g gs =>
      simp only [List.map_cons, List.cons.injEq] at h
      obtain ⟨hfg, hrest⟩ := h
      have h1 : f.description = g.description := congrArg Prod.fst hfg
      have h2 : f.language = g.language :=
        congrArg (fun p => p.2.1) hfg
      have h3 : f.tags = g.tags := congrArg (fun p => p.2.2.1) hfg
      have h4 : f.code = g.code := congrArg (fun p => p.2.2.2) hfg
      simp only [readSnippets, List.map_cons, List.cons.injEq]
      refine ⟨by simp only [readOne, h1, h2, h3, h4], ?_⟩
      have := ih gs hrest
      simpa [readSnippets] using this

/-- C7.  Each snippet added by the import loop receives
`get_current_snippet_index() + 1` — the next counter value — as its
identifier; every record stored by an import carries the import-time
timestamps and its loop-assigned identifier; and the parsed snippets
depend only on the `description`, `language`, `tags` and `code` fields of
the file, never on identifier or timestamp values present in it. -/
theorem import_reassigns_ids_and_timestamps :
    (∀ db s, (importStep db s).2 = getCurrentSnippetIndex db + 1) ∧
    (∀ files now db i, i ∈ (importRun db (readSnippets files now)).2 →
      ∃ s, getSnippet ((importRun db (readSnippets files now)).1) i = some s ∧
        s.index = i ∧ s.date = now ∧ s.updated = now) ∧
    (∀ files1 files2 now, files1.map fileData = files2.map fileData →
      readSnippets files1 now = readSnippets files2 now) :=
  ⟨importStep_assigned, importRun_stored, readSnippets_only_data⟩

/-- Witness for C7: importing one file record whose identifier and
timestamp fields are junk (99/88/77); the stored record has identifier 1
and both timestamps 5, and the parse equals that of the same record with
the junk fields absent. -/
theorem import_reassigns_ids_and_timestamps_witness :
    (1 ∈ (importRun emptyDb (readSnippets
      [⟨"d", "l", ["t"], "c", some 99, some 88, some 77⟩] 5)).2) ∧
    (∃ s, getSnippet ((importRun emptyDb (readSnippets
        [⟨"d", "l", ["t"], "c", some 99, some 88, some 77⟩] 5)).1) 1 =
        some s ∧ s.index = 1 ∧ s.date = 5 ∧ s.updated = 5) ∧
    readSnippets [⟨"d", "l", ["t"], "c", some 99, some 88, some 77⟩] 5 =
      readSnippets [⟨"d", "l", ["t"], "c", none, none, none⟩] 5 := by
  refine ⟨by decide, ?_, ?_⟩
  · exact import_reassigns_ids_and_timestamps.2.1
      [⟨"d", "l", ["t"], "c", some 99, some 88, some 77⟩] 5 emptyDb 1
      (by decide)
  · exact import_reassigns_ids_and_timestamps.2.2
      [⟨"d", "l", ["t"], "c", some 99, some 88, some 77⟩]
      [⟨"d", "l", ["t"], "c", none, none, none⟩] 5 rfl

theorem mem_interIds (a b : List Nat) (i : Nat) :
    i ∈ interIds a b ↔ i ∈ a ∧ i ∈ b := by
  simp [interIds]

theorem mem_foldl_inter (db : Db) (ts : List String) (init : List Nat)
    (i : Nat) :
    i ∈ ts.foldl (fun acc tg => interIds acc (lookupIdx db.tagIdx tg)) init ↔
      i ∈ init ∧ ∀ tg ∈ ts, i ∈ lookupIdx db.tagIdx tg := by
  induction ts generalizing init with
  | nil => simp
  | cons tg rest ih =>
    simp only [List.foldl_cons]
    rw [ih]
    constructor
    · rintro ⟨h1, h2⟩
      have h3 := (mem_interIds _ _ _).mp h1
      refine ⟨h3.1, fun tg2 htg2 => ?_⟩
      rcases List.mem_cons.mp htg2 with rfl | htg2
      · exact h3.2
      · exact h2 tg2 htg2
    · rintro ⟨h1, h2⟩
      exact ⟨(mem_interIds _ _ _).mpr ⟨h1, h2 tg (List.mem_cons_self _ _)⟩,
        fun tg2 htg2 => h2 tg2 (List.mem_cons_of_mem _ htg2)⟩

theorem mem_tagCandidates (db : Db) (t : String) (ts : List String) (i : Nat) :
    i ∈ tagCandidates db t ts ↔
      ∀ tg ∈ t :: ts, i ∈ lookupIdx db.tagIdx tg := by
  unfold tagCandidates
  rw [mem_foldl_inter]
  constructor
  · rintro ⟨h1, h2⟩ tg htg
    rcases List.mem_cons.mp htg with rfl | htg
    · exact h1
    · exact h2 tg htg
  · intro h
    exact ⟨h t (List.mem_cons_self _ _),
      fun tg htg => h tg (List.mem_cons_of_mem _ htg)⟩

/-- The filter that sets only a (nonempty) tag list. -/
def tagsOnly (t : String) (ts : List String) : Filters :=
  { language := none
    tags := some (t :: ts)
    dateFrom := none
    dateTo := none
    textQuery := none }

theorem filterSnippets_tags_only (db : Db) (t : String) (ts : List String) :
    filterSnippets db (tagsOnly t ts) =
      (tagCandidates db t ts).filterMap (getSnippet db) := by
  apply List.filter_eq_self.mpr
  intro s _
  rfl

/-- C8.  Against a state whose tag index is consistent with the Record
Store, a query whose filter carries a nonempty tag list (and nothing else)
returns exactly the stored records containing every listed tag; in
particular, if some listed tag occurs in no stored record the result is
the empty sequence — not an error, since the query is a total function. -/
theorem tag_filter_returns_records_with_all_tags (db : Db) (t : String)
    (ts : List String) (hcons : tagConsistent db) :
    (∀ s, s ∈ filterSnippets db (tagsOnly t ts) ↔
      ((∃ i, getSnippet db i = some s) ∧ ∀ tg ∈ t :: ts, tg ∈ s.tags)) ∧
    (∀ tg ∈ t :: ts, (∀ i s, getSnippet db i = some s → tg ∉ s.tags) →
      filterSnippets db (tagsOnly t ts) = []) := by
  have hmain : ∀ s, s ∈ filterSnippets db (tagsOnly t ts) ↔
      ((∃ i, getSnippet db i = some s) ∧ ∀ tg ∈ t :: ts, tg ∈ s.tags) := by
    intro s
    rw [filterSnippets_tags_only, List.mem_filterMap]
    constructor
    · rintro ⟨i, hi, hget⟩
      refine ⟨⟨i, hget⟩, fun tg htg => ?_⟩
      have h1 := (mem_tagCandidates db t ts i).mp hi tg htg
      obtain ⟨s2, hs2, htag2⟩ := (hcons tg i).mp h1
      rw [hget] at hs2
      cases hs2
      exact htag2
    · rintro ⟨⟨i, hget⟩, hall⟩
      refine ⟨i, (mem_tagCandidates db t ts i).mpr fun tg htg => ?_, hget⟩
      exact (hcons tg i).mpr ⟨s, hget, hall tg htg⟩
  refine ⟨hmain, fun tg htg hnone => ?_⟩
  apply List.eq_nil_iff_forall_not_mem.mpr
  intro s hs
  obtain ⟨⟨i, hget⟩, hall⟩ := (hmain s).mp hs
  exact hnone i s hget (hall tg htg)

/-- The record held by `dbOne`. -/
def snipA : Snippet := fromUser 1 sampleInp none 10

/-- Witness for C8 on the one-snippet store, whose tag index is consistent:
filtering by both of the record's tags returns it. -/
theorem tag_filter_returns_records_with_all_tags_witness :
    tagConsistent dbOne ∧
    snipA ∈ filterSnippets dbOne (tagsOnly "cli" ["demo"]) := by
  have htags : dbOne.tagIdx = [("cli", [1]), ("demo", [1])] := rfl
  have hsnips : dbOne.snippets = [(1, snipA)] := rfl
  have hcons : tagConsistent dbOne := by
    intro tg i
    constructor
    · intro hmem
      rw [show lookupIdx dbOne.tagIdx tg =
          (if "cli" = tg then [1] else if "demo" = tg then [1] else []) from
          by rw [htags]; simp [lookupIdx]] at hmem
      by_cases h1 : "cli" = tg
      · rw [if_pos h1] at hmem
        rcases List.mem_singleton.mp hmem with rfl
        exact ⟨snipA, rfl, by rw [← h1]; decide⟩
      · rw [if_neg h1] at hmem
        by_cases h2 : "demo" = tg
        · rw [if_pos h2] at hmem
          rcases List.mem_singleton.mp hmem with rfl
          exact ⟨snipA, rfl, by rw [← h2]; decide⟩
        · rw [if_neg h2] at hmem
          exact absurd hmem (List.not_mem_nil i)
    · rintro ⟨s, hs, htag⟩
      have hget : getSnippet dbOne i =
          (if 1 = i then some snipA else none) := by
        show lookupRecord dbOne.snippets i = _
        rw [hsnips]
        rfl
      rw [hget] at hs
      by_cases hi : 1 = i
      · rw [if_pos hi] at hs
        cases hs
        have : tg = "cli" ∨ tg = "demo" := by
          have h2 : tg ∈ snipA.tags := htag
          rw [show snipA.tags = ["cli", "demo"] from rfl] at h2
          simpa using h2
        rw [show lookupIdx dbOne.tagIdx tg =
            (if "cli" = tg then [1] else if "demo" = tg then [1] else [])
            from by rw [htags]; simp [lookupIdx]]
        rcases this with rfl | rfl
        · rw [if_pos rfl]
          exact hi ▸ List.mem_singleton.mpr rfl
        · rw [if_neg (by decide), if_pos rfl]
          exact hi ▸ List.mem_singleton.mpr rfl
      · rw [if_neg hi] at hs
        cases hs
  refine ⟨hcons, ?_⟩
  exact (tag_filter_returns_records_with_all_tags dbOne "cli" ["demo"]
    hcons).1 snipA |>.mpr ⟨⟨1, rfl⟩, by decide⟩

/-- A file system already holding an (empty) export target. -/
def fsExisting : Fs := [("snippets.json", [])]

/-- C6 (code bug).  On the one-snippet store, exporting everything to an
existing file reports success yet leaves the file exactly as it was
(`fs::File::open` yields a read-only handle and the buffered bytes are
discarded), so re-importing that file yields zero records even though the
exported (filtered) set is nonempty: the round-trip property fails.  With
a nonexistent target the export fails outright
(`export_missing_file_is_io_error`). -/
theorem export_reimport_roundtrip_fails :
    (exportCmd dbOne noFilters (some "snippets.json") fsExisting).1 =
      .ok () ∧
    (exportCmd dbOne noFilters (some "snippets.json") fsExisting).2 =
      fsExisting ∧
    importCmd fsExisting "snippets.json" emptyDb 20 = .ok (emptyDb, []) ∧
    filterSnippets dbOne noFilters ≠ [] := by
  decide

end TheWay
